import Mathlib

/-!
Verification of `update-channel-single.py` (coreycb/release-tools).

Shallow embedding conventions:
* A text line is a `List Char` WITHOUT its terminating newline.  The Python
  code reads lines with `readlines()` (each line carries a trailing `'\n'`)
  and emits replacement lines ending in `'\n'`; stripping that single trailing
  newline is a bijection between the runtime lines and this representation,
  and on newline-free lines the simplified recognizers below agree with the
  source regexes (whose `$` matches just before a final newline and whose `.`
  never matches a newline).
* Python `\s` is modelled by the six ASCII whitespace characters (the bundle
  documents are ASCII).
* Python dicts are modelled as association lists with first-match lookup and
  overwrite-or-append insertion.
* Fallible parsing (`yaml.safe_load` failure followed by `sys.exit(1)`) is
  modelled with `Except`.
-/

namespace UpdateChannel

abbrev Line := List Char

/-- ASCII whitespace, the characters matched by Python's regex `\s` on the
ASCII plane: space, tab, newline, vertical tab, form feed, carriage return. -/
def pyIsSpace (c : Char) : Bool :=
  c == ' ' || c == '\t' || c == '\n' || c == '\x0b' || c == '\x0c' || c == '\r'

def notSpace (c : Char) : Bool := !pyIsSpace c

/-- Python `s.startswith(t)`: `t` is a prefix of `s`. -/
def startsWith : Line → Line → Bool
  | _, [] => true
  | [], _ :: _ => false
  | c :: s, d :: t => c == d && startsWith s t

/-- Python `str.strip()`: leading and trailing whitespace removed. -/
def pyStrip (l : Line) : Line :=
  ((l.dropWhile pyIsSpace).reverse.dropWhile pyIsSpace).reverse

/-- Recursion worker for `replaceAll`.  The fuel argument only serves to make
the recursion structural (each recursive call is on a suffix of the input, so
fuel `s.length` never runs out); the zero-fuel branch is unreachable from the
wrapper. -/
def replaceAllFuel (old new : Line) : Nat → Line → Line
  | _, [] => []
  | 0, s => s
  | fuel + 1, c :: rest =>
    if old ≠ [] ∧ startsWith (c :: rest) old then
      new ++ replaceAllFuel old new fuel (rest.drop (old.length - 1))
    else
      c :: replaceAllFuel old new fuel rest

/-- Python `str.replace(old, new)`: every non-overlapping occurrence of `old`,
scanning left to right, is replaced by `new`.  (`old` is never empty at the
call sites: it is a captured charm prefix such as `cs:~openstack-charmers/`.) -/
def replaceAll (old new s : Line) : Line := replaceAllFuel old new s.length s

/-- Character class `[a-zA-Z0-9-]` from the charm-name capture groups. -/
def isNameChar (c : Char) : Bool :=
  (('a' ≤ c && c ≤ 'z') || ('A' ≤ c && c ≤ 'Z') || ('0' ≤ c && c ≤ '9')
    || c == '-')

/-- Strip a literal from the front of a line, or fail (a regex literal). -/
def dropLit (lit : Line) (s : Line) : Option Line :=
  if startsWith s lit then some (s.drop lit.length) else none

/-- The optional-quote group `(?:|'|")`.  The surrounding context never starts
with a quote character, so the regex alternation consumes a quote exactly when
one is present. -/
def optQuote : Line → Line
  | [] => []
  | c :: rest => if c == '\'' || c == '"' then rest else c :: rest

/-- The trailing pattern `\s*(?:|#.*)$` shared by all three regexes: optional
whitespace, then either nothing or a `#` comment running to end of line. -/
def trailOk (s : Line) : Bool :=
  match s.dropWhile pyIsSpace with
  | [] => true
  | c :: _ => c == '#'

def charmKey : Line := "charm:".data
def chanKey : Line := "channel:".data
def chLit : Line := "ch:".data
def csMainPfx : Line := "cs:~openstack-charmers/".data
def csNextPfx : Line := "cs:~openstack-charmers-next/".data
def csLit : Line := "cs:".data
def hashLit : Line := "#".data
def chanSp : Line := "channel: ".data

/-- The prefix alternation of `CHARM_MATCH`:
`(ch:|cs:(?:~openstack-charmers/|~openstack-charmers-next/))`, alternatives
tried in regex order.  Returns the captured prefix and the rest of the line. -/
def matchKnownPfx (s : Line) : Option (Line × Line) :=
  match dropLit chLit s with
  | some r => some (chLit, r)
  | none =>
    match dropLit csMainPfx s with
    | some r => some (csMainPfx, r)
    | none =>
      match dropLit csNextPfx s with
      | some r => some (csNextPfx, r)
      | none => none

structure CharmCapture where
  indent : Line
  pfx : Line
  name : Line
deriving DecidableEq, Repr

structure ChannelCapture where
  indent : Line
  value : Line
deriving DecidableEq, Repr

structure AnyCharmCapture where
  indent : Line
  pfx : Line
  name : Line
deriving DecidableEq, Repr

/-- Body of `CHARM_MATCH` after the captured indent: `charm:` then `\s+`,
optional quote, known prefix, name `[a-zA-Z0-9-]+`, optional quote, trailer.
Returns the captured (prefix, name). -/
def charmCore (s : Line) : Option (Line × Line) :=
  match dropLit charmKey s with
  | none => none
  | some r1 =>
    if (r1.takeWhile pyIsSpace).isEmpty then none
    else
      match matchKnownPfx (optQuote (r1.dropWhile pyIsSpace)) with
      | none => none
      | some (p, r2) =>
        let nm := r2.takeWhile isNameChar
        if nm.isEmpty then none
        else if trailOk (optQuote (r2.dropWhile isNameChar)) then some (p, nm)
        else none

/-- `CHARM_MATCH.match(line)`:
`^(\s*)charm:\s+(?:|'|")(ch:|cs:(?:~openstack-charmers/|~openstack-charmers-next/))([a-zA-Z0-9-]+)(?:|'|")\s*(?:|#.*)$`. -/
def charmMatch (l : Line) : Option CharmCapture :=
  match charmCore (l.dropWhile pyIsSpace) with
  | some pn => some ⟨l.takeWhile pyIsSpace, pn.1, pn.2⟩
  | none => none

/-- Greedy search for the length of the `(\S+)` value capture of
`CHANNEL_MATCH`: the longest nonempty all-non-whitespace prefix of `t` whose
remainder still satisfies the `\s*(?:|#.*)$` trailer (the regex backtracks the
greedy `\S+` until the trailer fits). -/
def chanValueLen (t : Line) : Nat → Option Nat
  | 0 => none
  | k + 1 => if trailOk (t.drop (k + 1)) then some (k + 1) else chanValueLen t k

/-- Body of `CHANNEL_MATCH` after the captured indent. -/
def chanCore (s : Line) : Option Line :=
  match dropLit chanKey s with
  | none => none
  | some r1 =>
    if (r1.takeWhile pyIsSpace).isEmpty then none
    else
      let r2 := r1.dropWhile pyIsSpace
      match chanValueLen r2 (r2.takeWhile notSpace).length with
      | none => none
      | some k => some (r2.take k)

/-- `CHANNEL_MATCH.match(line)`: `^(\s*)channel:\s+(\S+)\s*(?:|#.*)$`. -/
def channelMatch (l : Line) : Option ChannelCapture :=
  match chanCore (l.dropWhile pyIsSpace) with
  | some v => some ⟨l.takeWhile pyIsSpace, v⟩
  | none => none

/-- Tail of `ANY_CHARM_MATCH` after the `(cs:.*/)` capture:
`([a-zA-Z0-9-]+)(?:|'|")\s*(?:|#.*)$`; returns the captured name. -/
def anyTailName (s : Line) : Option Line :=
  let nm := s.takeWhile isNameChar
  if nm.isEmpty then none
  else if trailOk (optQuote (s.dropWhile isNameChar)) then some nm
  else none

/-- Greedy search for the split point of `(cs:.*/)([a-zA-Z0-9-]+)...`: the
largest index `k` of `r` holding `'/'` such that the tail after it matches.
(The greedy `.*` prefers the longest prefix, i.e. the last suitable slash.) -/
def anySplitFind (r : Line) : Nat → Option Nat
  | 0 => none
  | k + 1 =>
    if (r.getD k ' ' == '/') && (anyTailName (r.drop (k + 1))).isSome then
      some k
    else anySplitFind r k

/-- Body of `ANY_CHARM_MATCH` after the captured indent; returns the captured
(legacy prefix, name). -/
def anyCore (s : Line) : Option (Line × Line) :=
  match dropLit charmKey s with
  | none => none
  | some r1 =>
    if (r1.takeWhile pyIsSpace).isEmpty then none
    else
      match dropLit csLit (optQuote (r1.dropWhile pyIsSpace)) with
      | none => none
      | some r3 =>
        match anySplitFind r3 r3.length with
        | none => none
        | some k =>
          match anyTailName (r3.drop (k + 1)) with
          | none => none
          | some nm => some (csLit ++ r3.take (k + 1), nm)

/-- `ANY_CHARM_MATCH.match(line)`:
`^(\s*)charm:\s+(?:|'|")(cs:.*/)([a-zA-Z0-9-]+)(?:|'|")\s*(?:|#.*)$`. -/
def anyCharmMatch (l : Line) : Option AnyCharmCapture :=
  match anyCore (l.dropWhile pyIsSpace) with
  | some pn => some ⟨l.takeWhile pyIsSpace, pn.1, pn.2⟩
  | none => none

/-! ### The rewrite engine (`modify_channel`) -/

/-- First-match association-list lookup, modelling Python dict indexing
(`lp_config[_charm]`, raising `KeyError` ↦ `none`). -/
def alookup (k : Line) : List (Line × α) → Option α
  | [] => none
  | kv :: rest => if kv.1 = k then some kv.2 else alookup k rest

/-- The `{<charm>: {<branch>: [track, ...]}}` structure (`LpConfig`). -/
abbrev LpCfg := List (Line × List (Line × List Line))

/-- Parameters of `modify_channel` other than the document itself. -/
structure Cfg where
  charms : List Line
  lpConfig : LpCfg
  channel : Option Line
  branches : List Line
  ensurePfx : Bool
  ignoreTracks : List Line

/-- `if branches: valid_charms = list(lp_config.keys())
else: valid_charms = charms[:]`. -/
def Cfg.validCharms (p : Cfg) : List Line :=
  if p.branches.isEmpty then p.charms else p.lpConfig.map (fun kv => kv.1)

/-- The `for ignore in ignore_tracks: ... else: return track` filter: the
track is returned when no ignore entry is a prefix of it. -/
def trackAllowed (ignoreTracks : List Line) (t : Line) : Bool :=
  ignoreTracks.all (fun ig => !startsWith t ig)

/-- The `for track in lp_config[_charm][branch]:` loop body of
`_get_channel`: with no ignore list the first track is returned outright;
otherwise the scan moves past ignored tracks (the inner `break` only leaves
the ignore loop) and returns the first allowed one. -/
def findTrack (ignoreTracks : List Line) : List Line → Option Line
  | [] => none
  | t :: rest =>
    if ignoreTracks.isEmpty then some t
    else if trackAllowed ignoreTracks t then some t
    else findTrack ignoreTracks rest

/-- `_get_channel(_charm)`.  `KeyError` on a missing charm or branch key is
swallowed (`except (KeyError, IndexError): pass`), moving to the next
branch; with no branches the closed-over `channel` is returned. -/
def getChannel (p : Cfg) (charm? : Option Line) : Option Line :=
  match charm? with
  | none => none
  | some c =>
    if p.branches.isEmpty then p.channel
    else
      p.branches.findSome? fun b =>
        match alookup c p.lpConfig with
        | none => none
        | some bm =>
          match alookup b bm with
          | none => none
          | some ts => findTrack p.ignoreTracks ts

/-- The guarded channel-line emission shared by the three insertion points:
`if channel is not None or branches: _channel = _get_channel(current_charm);
if _channel is not None: new_lines.append("{}channel: {}\n".format(...))`. -/
def flushChannel (p : Cfg) (ind charm : Line) : List Line :=
  if p.channel.isSome || !p.branches.isEmpty then
    match getChannel p (some charm) with
    | some v => [ind ++ chanSp ++ v]
    | none => []
  else []

/-- The reference-detection tail of the loop body: `match = CHARM_MATCH...;
any_charm_match = ANY_CHARM_MATCH...; if match: ... elif any_charm_match and
ensure_charmhub_prefix: ...`.  Returns the updated `(indent, current_charm)`
state and the (possibly prefix-rewritten) line to emit.  Note that a strict
match with a name outside `valid_charms` takes the `if match:` branch and
does nothing, leaving the state and the line untouched. -/
def refDetect (p : Cfg) (st : Option (Line × Line)) (l : Line) :
    Option (Line × Line) × Line :=
  match charmMatch l with
  | some m =>
    if m.name ∈ p.validCharms then
      (some (m.indent, m.name),
        if p.ensurePfx ∧ m.pfx ≠ chLit then replaceAll m.pfx chLit l else l)
    else (st, l)
  | none =>
    match anyCharmMatch l with
    | some am => if p.ensurePfx then (st, replaceAll am.pfx chLit l) else (st, l)
    | none => (st, l)

/-- One iteration of the `for line in file_lines:` loop: the in-block search
for a same-indent `channel:` line (whose hit drops the line via `continue`
and emits the resolved replacement, if any), the block-end flush on a
de-indented line, and reference detection.  Returns the next state and the
lines emitted for this input line. -/
def step (p : Cfg) (st : Option (Line × Line)) (l : Line) :
    Option (Line × Line) × List Line :=
  match st with
  | some (ind, charm) =>
    if startsWith l ind then
      match channelMatch l with
      | some cm =>
        if cm.indent = ind then (none, flushChannel p ind charm)
        else
          let r := refDetect p (some (ind, charm)) l
          (r.1, [r.2])
      | none =>
        let r := refDetect p (some (ind, charm)) l
        (r.1, [r.2])
    else
      let r := refDetect p none l
      (r.1, flushChannel p ind charm ++ [r.2])
  | none =>
    let r := refDetect p none l
    (r.1, [r.2])

/-- The whole loop plus the end-of-file flush (`if indent is not None and
(channel is not None or branches): ...`). -/
def processLines (p : Cfg) : Option (Line × Line) → List Line → List Line
  | some st, [] => flushChannel p st.1 st.2
  | none, [] => []
  | st, l :: rest =>
    let r := step p st l
    r.2 ++ processLines p r.1 rest

/-- `modify_channel` restricted to its pure core: the map from the list of
input lines to the list of output lines that is then written back. -/
def modifyChannel (p : Cfg) (doc : List Line) : List Line :=
  processLines p none doc

/-! ### `get_charms_list` -/

/-- The filter of `get_charms_list`: `if line and not(line.startswith('#'))`
applied to the stripped lines. -/
def keepCharmLine (l : Line) : Bool :=
  !l.isEmpty && !startsWith l hashLit

/-- `get_charms_list(*charms_files)`.  Each file is its list of lines (each
runtime line ends in a newline, so the pre-strip `if line` truthiness guard
of the generator expression is always true and is dropped here); the lines
are stripped, concatenated across files in order, and filtered. -/
def getCharmsList (files : List (List Line)) : List Line :=
  ((files.map fun f => f.map pyStrip).flatten).filter keepCharmLine

/-! ### `parse_lp_builder_config_file` -/

/-- A `branches:` map entry as accessed by the code: only the presence and
value of its `channels` key matter (`v['channels']`). -/
structure RawBranch where
  channels? : Option (List Line)

/-- A `projects:` entry as accessed by the code: its `charmhub` key and its
optional `branches` map. -/
structure RawProject where
  charmhub? : Option Line
  branches? : Option (List (Line × RawBranch))

/-- A parsed config document as accessed by the code. `defaultsBranches?` is
`raw_config['defaults']['branches']` when both keys exist (either key missing
raises the `KeyError` that yields empty defaults). -/
structure RawConfig where
  defaultsBranches? : Option (List (Line × RawBranch))
  projects? : Option (List RawProject)

/-- The dict comprehension `{k: v['channels'] for k, v in ....items()}`:
it fails as a whole (`KeyError`) when any entry lacks `channels`. -/
def branchesOf (m : List (Line × RawBranch)) : Option (List (Line × List Line)) :=
  m.mapM fun kv =>
    match kv.2.channels? with
    | some cs => some (kv.1, cs)
    | none => none

/-- The `default_branches` computation with its `except KeyError: {}`. -/
def rawDefaults (rc : RawConfig) : List (Line × List Line) :=
  match rc.defaultsBranches? with
  | none => []
  | some m => (branchesOf m).getD []

/-- Python dict assignment `d[k] = v`: overwrite in place if the key exists,
otherwise append. -/
def dictInsert (m : List (Line × α)) (k : Line) (v : α) : List (Line × α) :=
  if (alookup k m).isSome then
    m.map fun kv => if kv.1 = k then (k, v) else kv
  else m ++ [(k, v)]

/-- The `for project in raw_config['projects']:` loop.  A project without a
`branches` key (or with a malformed one) falls back to a copy of the
defaults (inner `except KeyError`); a project without a `charmhub` key
raises a `KeyError` that escapes to the outer handler, ending the loop with
only the entries accumulated so far. -/
def buildProjects (defs : List (Line × List Line)) :
    List RawProject → LpCfg → LpCfg
  | [], acc => acc
  | pr :: rest, acc =>
    let brs :=
      match pr.branches? with
      | none => defs
      | some m =>
        match branchesOf m with
        | some bm => bm
        | none => defs
    match pr.charmhub? with
    | none => acc
    | some ch => buildProjects defs rest (dictInsert acc ch brs)

/-- `parse_lp_builder_config_file` on an already-parsed document: a missing
`projects` key is the `KeyError` caught by the outer handler, which logs a
warning and returns whatever was accumulated (nothing). -/
def parseLpConfigRaw (rc : RawConfig) : LpCfg :=
  match rc.projects? with
  | none => []
  | some ps => buildProjects (rawDefaults rc) ps []

/-- `parse_lp_builder_config_file` including the fatal-on-unparsable path:
`none` stands for a document `yaml.safe_load` cannot read, on which the code
calls `sys.exit(1)`. -/
def parseLpBuilderConfigFile : Option RawConfig → Except Unit LpCfg
  | none => Except.error ()
  | some rc => Except.ok (parseLpConfigRaw rc)

/-! ### Helper lemmas about the string primitives -/

theorem startsWith_nil (l : Line) : startsWith l [] = true := by
  cases l <;> rfl

theorem startsWith_append_self (l r : Line) : startsWith (l ++ r) l = true := by
  induction l with
  | nil => exact startsWith_nil r
  | cons c t ih => simp [startsWith, ih]

theorem startsWith_iff_take (s t : Line) :
    startsWith s t = true ↔ s.take t.length = t := by
  induction t generalizing s with
  | nil => simp [startsWith_nil]
  | cons d t ih =>
    cases s with
    | nil => simp [startsWith]
    | cons c s' => simp [startsWith, List.take_succ_cons, ih]

theorem takeWhile_startsWith (p : Char → Bool) (l : Line) :
    startsWith l (l.takeWhile p) = true := by
  induction l with
  | nil => rfl
  | cons c t ih =>
    by_cases h : p c
    · simp [List.takeWhile_cons_of_pos h, startsWith, ih]
    · simp [List.takeWhile_cons_of_neg h, startsWith_nil]

theorem takeWhile_append_all {p : Char → Bool} {i : Line} (r : Line)
    (h : ∀ c ∈ i, p c = true) :
    (i ++ r).takeWhile p = i ++ r.takeWhile p := by
  induction i with
  | nil => simp
  | cons c t ih =>
    have hc : p c = true := h c (by simp)
    simp only [List.cons_append, List.takeWhile_cons_of_pos hc]
    rw [ih fun x hx => h x (by simp [hx])]

theorem dropWhile_append_all {p : Char → Bool} {i : Line} (r : Line)
    (h : ∀ c ∈ i, p c = true) :
    (i ++ r).dropWhile p = r.dropWhile p := by
  induction i with
  | nil => simp
  | cons c t ih =>
    have hc : p c = true := h c (by simp)
    simp only [List.cons_append, List.dropWhile_cons_of_pos hc]
    exact ih fun x hx => h x (by simp [hx])

/-! ### Helper lemmas about the matchers -/

theorem charmMatch_indent {l : Line} {m : CharmCapture}
    (h : charmMatch l = some m) : m.indent = l.takeWhile pyIsSpace := by
  unfold charmMatch at h
  cases hc : charmCore (l.dropWhile pyIsSpace) <;> rw [hc] at h
  · exact absurd h (by simp)
  · cases h
    rfl

theorem charmMatch_indent_ws {l : Line} {m : CharmCapture}
    (h : charmMatch l = some m) : ∀ c ∈ m.indent, pyIsSpace c = true := by
  rw [charmMatch_indent h]
  exact fun c hc => List.mem_takeWhile_imp hc

theorem charmMatch_startsWith {l : Line} {m : CharmCapture}
    (h : charmMatch l = some m) : startsWith l m.indent = true := by
  rw [charmMatch_indent h]
  exact takeWhile_startsWith pyIsSpace l

theorem channelMatch_indent {l : Line} {cm : ChannelCapture}
    (h : channelMatch l = some cm) : cm.indent = l.takeWhile pyIsSpace := by
  unfold channelMatch at h
  cases hc : chanCore (l.dropWhile pyIsSpace) <;> rw [hc] at h
  · exact absurd h (by simp)
  · cases h
    rfl

theorem channelMatch_startsWith {l : Line} {cm : ChannelCapture}
    (h : channelMatch l = some cm) : startsWith l cm.indent = true := by
  rw [channelMatch_indent h]
  exact takeWhile_startsWith pyIsSpace l

theorem charmCore_key {s : Line} {x : Line × Line} (h : charmCore s = some x) :
    startsWith s charmKey = true := by
  by_cases hs : startsWith s charmKey = true
  · exact hs
  · unfold charmCore dropLit at h
    rw [if_neg hs] at h
    exact absurd h (by simp)

theorem chanCore_key {s : Line} {x : Line} (h : chanCore s = some x) :
    startsWith s chanKey = true := by
  by_cases hs : startsWith s chanKey = true
  · exact hs
  · unfold chanCore dropLit at h
    rw [if_neg hs] at h
    exact absurd h (by simp)

/-- A line cannot match both `CHARM_MATCH` and `CHANNEL_MATCH`: the two
literal keys `charm:` and `channel:` cannot both be prefixes of the same
text. -/
theorem channelMatch_of_charmMatch {l : Line} {m : CharmCapture}
    (h : charmMatch l = some m) : channelMatch l = none := by
  cases hc : chanCore (l.dropWhile pyIsSpace) with
  | none => simp [channelMatch, hc]
  | some v =>
    exfalso
    have hcharm : charmCore (l.dropWhile pyIsSpace) ≠ none := by
      intro hn
      simp [charmMatch, hn] at h
    obtain ⟨pn, hpn⟩ := Option.ne_none_iff_exists'.mp hcharm
    have h1 : (l.dropWhile pyIsSpace).take charmKey.length = charmKey :=
      (startsWith_iff_take _ _).mp (charmCore_key hpn)
    have h2 : (l.dropWhile pyIsSpace).take chanKey.length = chanKey :=
      (startsWith_iff_take _ _).mp (chanCore_key hc)
    have h3 : ((l.dropWhile pyIsSpace).take chanKey.length).take charmKey.length
        = (l.dropWhile pyIsSpace).take charmKey.length := by
      rw [List.take_take]
      rfl
    rw [h1, h2] at h3
    exact absurd h3 (by decide)

theorem charmMatch_of_channelMatch {l : Line} {cm : ChannelCapture}
    (h : channelMatch l = some cm) : charmMatch l = none := by
  cases hc : charmMatch l with
  | none => rfl
  | some m => exact absurd h (by rw [channelMatch_of_charmMatch hc]; simp)

/-- A synthesized channel line is recognized by `CHANNEL_MATCH` with exactly
the indentation and value it was built from, provided the indent is pure
whitespace and the value is a nonempty whitespace-free token. -/
theorem channelMatch_emit {i v : Line} (hi : ∀ c ∈ i, pyIsSpace c = true)
    (hv : v ≠ []) (hvw : ∀ c ∈ v, notSpace c = true) :
    channelMatch (i ++ chanSp ++ v) = some ⟨i, v⟩ := by
  obtain ⟨c0, v', rfl⟩ : ∃ c0 v', v = c0 :: v' := by
    cases v with
    | nil => exact absurd rfl hv
    | cons a b => exact ⟨a, b, rfl⟩
  have hc0 : pyIsSpace c0 = false := by
    have := hvw c0 (by simp)
    simpa [notSpace] using this
  have hshape : chanSp ++ (c0 :: v') = chanKey ++ (' ' :: c0 :: v') := rfl
  have hts : List.takeWhile pyIsSpace (c0 :: v') = [] :=
    List.takeWhile_cons_of_neg (by simp [hc0])
  have htds : List.dropWhile pyIsSpace (c0 :: v') = c0 :: v' :=
    List.dropWhile_cons_of_neg (by simp [hc0])
  have hdw : (i ++ chanSp ++ (c0 :: v')).dropWhile pyIsSpace
      = chanSp ++ (c0 :: v') := by
    rw [List.append_assoc, dropWhile_append_all _ hi]
    rfl
  have htw : (i ++ chanSp ++ (c0 :: v')).takeWhile pyIsSpace = i := by
    rw [List.append_assoc, takeWhile_append_all _ hi]
    rw [show chanSp ++ (c0 :: v') = 'c' :: ("hannel: ".data ++ (c0 :: v'))
      from rfl]
    rw [List.takeWhile_cons_of_neg (by decide : ¬ pyIsSpace 'c' = true)]
    simp
  have h1 : dropLit chanKey (chanSp ++ (c0 :: v')) = some (' ' :: c0 :: v') := by
    unfold dropLit
    rw [hshape, if_pos (startsWith_append_self chanKey _), List.drop_left]
  have htw2 : List.takeWhile pyIsSpace (' ' :: c0 :: v') = [' '] := by
    rw [List.takeWhile_cons_of_pos (by decide : pyIsSpace ' ' = true), hts]
  have hdw2 : List.dropWhile pyIsSpace (' ' :: c0 :: v') = c0 :: v' := by
    rw [List.dropWhile_cons_of_pos (by decide : pyIsSpace ' ' = true), htds]
  have hself : List.takeWhile notSpace (c0 :: v') = c0 :: v' := by
    have := takeWhile_append_all (p := notSpace) (i := c0 :: v') [] hvw
    simpa using this
  have hlen : chanValueLen (c0 :: v') (v'.length + 1) = some (v'.length + 1) := by
    unfold chanValueLen
    rw [show v'.length + 1 = (c0 :: v').length from rfl, List.drop_length]
    simp [trailOk]
  have htake : List.take (v'.length + 1) (c0 :: v') = c0 :: v' := by
    rw [show v'.length + 1 = (c0 :: v').length from rfl, List.take_length]
  have hcore : chanCore (chanSp ++ (c0 :: v')) = some (c0 :: v') := by
    unfold chanCore
    rw [h1]
    simp [htw2, hdw2, hself, hlen, htake]
  have htw' : List.takeWhile pyIsSpace (i ++ (chanSp ++ (c0 :: v'))) = i := by
    rw [← List.append_assoc]
    exact htw
  unfold channelMatch
  rw [hdw, hcore]
  simp [htw, htw']

theorem startsWith_emit (i r : Line) : startsWith (i ++ chanSp ++ r) i = true := by
  rw [List.append_assoc]
  exact startsWith_append_self i _

/-! ### Helper lemmas about the engine -/

theorem getChannel_fixed {p : Cfg} {X : Line} (c : Line)
    (hB : p.branches = []) (hC : p.channel = some X) :
    getChannel p (some c) = some X := by
  simp [getChannel, hB, hC]

theorem flushChannel_fixed {p : Cfg} {X : Line} (i c : Line)
    (hB : p.branches = []) (hC : p.channel = some X) :
    flushChannel p i c = [i ++ chanSp ++ X] := by
  simp [flushChannel, hC, getChannel_fixed c hB hC]

theorem flushChannel_none {p : Cfg} (i c : Line)
    (h : getChannel p (some c) = none) : flushChannel p i c = [] := by
  unfold flushChannel
  rw [h]
  simp

theorem flushChannel_removal {p : Cfg} (i c : Line)
    (hB : p.branches = []) (hC : p.channel = none) :
    flushChannel p i c = [] := by
  simp [flushChannel, hB, hC]

theorem refDetect_valid {p : Cfg} {l : Line} {m : CharmCapture}
    (st : Option (Line × Line)) (hm : charmMatch l = some m)
    (hv : m.name ∈ p.validCharms) (hE : p.ensurePfx = false) :
    refDetect p st l = (some (m.indent, m.name), l) := by
  simp [refDetect, hm, hv, hE]

theorem refDetect_invalid {p : Cfg} {l : Line} {m : CharmCapture}
    (st : Option (Line × Line)) (hm : charmMatch l = some m)
    (hv : m.name ∉ p.validCharms) :
    refDetect p st l = (st, l) := by
  simp [refDetect, hm, hv]

theorem refDetect_nocharm {p : Cfg} {l : Line} (st : Option (Line × Line))
    (hm : charmMatch l = none) (hE : p.ensurePfx = false) :
    refDetect p st l = (st, l) := by
  unfold refDetect
  rw [hm]
  cases anyCharmMatch l <;> simp [hE]

theorem refDetect_any {p : Cfg} {l : Line} {am : AnyCharmCapture}
    (st : Option (Line × Line)) (hm : charmMatch l = none)
    (ha : anyCharmMatch l = some am) (hE : p.ensurePfx = true) :
    refDetect p st l = (st, replaceAll am.pfx chLit l) := by
  simp [refDetect, hm, ha, hE]

theorem step_none (p : Cfg) (l : Line) :
    step p none l = ((refDetect p none l).1, [(refDetect p none l).2]) := rfl

theorem step_chan {p : Cfg} {l : Line} {cm : ChannelCapture} (i c : Line)
    (hpre : startsWith l i = true) (hcm : channelMatch l = some cm)
    (hind : cm.indent = i) :
    step p (some (i, c)) l = (none, flushChannel p i c) := by
  simp [step, hpre, hcm, hind]

theorem step_in {p : Cfg} {l : Line} (i c : Line)
    (hpre : startsWith l i = true)
    (hnc : ∀ cm, channelMatch l = some cm → cm.indent ≠ i) :
    step p (some (i, c)) l
      = ((refDetect p (some (i, c)) l).1, [(refDetect p (some (i, c)) l).2]) := by
  cases hcm : channelMatch l with
  | none => simp [step, hpre, hcm]
  | some cm => simp [step, hpre, hcm, hnc cm hcm]

theorem step_out {p : Cfg} {l : Line} (i c : Line)
    (hpre : startsWith l i = false) :
    step p (some (i, c)) l
      = ((refDetect p none l).1,
          flushChannel p i c ++ [(refDetect p none l).2]) := by
  simp [step, hpre]

theorem processLines_cons (p : Cfg) (st : Option (Line × Line)) (l : Line)
    (rest : List Line) :
    processLines p st (l :: rest)
      = (step p st l).2 ++ processLines p (step p st l).1 rest := by
  rcases st with _ | ⟨i, c⟩ <;> rfl

theorem processLines_nil_some (p : Cfg) (i c : Line) :
    processLines p (some (i, c)) [] = flushChannel p i c := rfl

theorem processLines_step (p : Cfg) {st st' : Option (Line × Line)} {l : Line}
    {out : List Line} (rest : List Line) (h : step p st l = (st', out)) :
    processLines p st (l :: rest) = out ++ processLines p st' rest := by
  rw [processLines_cons, h]

theorem processLines_nil_none (p : Cfg) : processLines p none [] = [] := rfl

theorem refDetect_fst_of_valid {p : Cfg} {l : Line} {m : CharmCapture}
    (st : Option (Line × Line)) (hm : charmMatch l = some m)
    (hv : m.name ∈ p.validCharms) :
    (refDetect p st l).1 = some (m.indent, m.name) := by
  simp [refDetect, hm, hv]

theorem refDetect_fst_of_invalid {p : Cfg} {l : Line} {m : CharmCapture}
    (st : Option (Line × Line)) (hm : charmMatch l = some m)
    (hv : m.name ∉ p.validCharms) :
    (refDetect p st l).1 = st := by
  simp [refDetect, hm, hv]

theorem refDetect_fst_of_nocharm {p : Cfg} {l : Line}
    (st : Option (Line × Line)) (hm : charmMatch l = none) :
    (refDetect p st l).1 = st := by
  unfold refDetect
  rw [hm]
  cases anyCharmMatch l with
  | none => rfl
  | some am => by_cases hE : p.ensurePfx = true <;> simp [hE]

/-- With prefix migration off, `refDetect` never modifies the line. -/
theorem refDetect_snd_noens {p : Cfg} {l : Line} (st : Option (Line × Line))
    (hE : p.ensurePfx = false) : (refDetect p st l).2 = l := by
  unfold refDetect
  cases charmMatch l with
  | some m =>
    by_cases hv : m.name ∈ p.validCharms <;> simp [hv, hE]
  | none =>
    cases anyCharmMatch l with
    | none => rfl
    | some am => simp [hE]

/-- States produced by `refDetect` always carry a pure-whitespace indent. -/
theorem refDetect_ws {p : Cfg} {st st' : Option (Line × Line)} {l : Line}
    (h : (refDetect p st l).1 = st')
    (hst : ∀ i c, st = some (i, c) → ∀ ch ∈ i, pyIsSpace ch = true) :
    ∀ i c, st' = some (i, c) → ∀ ch ∈ i, pyIsSpace ch = true := by
  intro i c hst' ch hch
  cases hm : charmMatch l with
  | some m =>
    by_cases hv : m.name ∈ p.validCharms
    · rw [refDetect_fst_of_valid st hm hv] at h
      rw [← h] at hst'
      simp only [Option.some.injEq, Prod.mk.injEq] at hst'
      rw [← hst'.1] at hch
      exact charmMatch_indent_ws hm ch hch
    · rw [refDetect_fst_of_invalid st hm hv] at h
      exact hst i c (by rw [h]; exact hst') ch hch
  | none =>
    rw [refDetect_fst_of_nocharm st hm] at h
    exact hst i c (by rw [h]; exact hst') ch hch

/-- Core induction for idempotence in fixed-channel mode: with prefix
migration off, no branches, and a nonempty whitespace-free target channel,
re-running the pass from any reachable state over its own output reproduces
that output. -/
theorem processLines_idem (p : Cfg) (X : Line)
    (hE : p.ensurePfx = false) (hB : p.branches = []) (hC : p.channel = some X)
    (hX : X ≠ []) (hXw : ∀ c ∈ X, notSpace c = true) :
    ∀ (doc : List Line) (st : Option (Line × Line)),
      (∀ i c, st = some (i, c) → ∀ ch ∈ i, pyIsSpace ch = true) →
      processLines p st (processLines p st doc) = processLines p st doc := by
  intro doc
  induction doc with
  | nil =>
    intro st hst
    rcases st with _ | ⟨i, c⟩
    · rfl
    · have hws : ∀ ch ∈ i, pyIsSpace ch = true := hst i c rfl
      have hcmE : channelMatch (i ++ chanSp ++ X) = some ⟨i, X⟩ :=
        channelMatch_emit hws hX hXw
      rw [processLines_nil_some, flushChannel_fixed i c hB hC,
        processLines_cons, step_chan i c (startsWith_emit i X) hcmE rfl,
        flushChannel_fixed i c hB hC, processLines_nil_none, List.append_nil]
  | cons l rest ih =>
    intro st hst
    rcases st with _ | ⟨i, c⟩
    · -- state `none`: the line passes through; the state opens on an
      -- eligible reference and stays closed otherwise.
      cases hm : charmMatch l with
      | some m =>
        by_cases hv : m.name ∈ p.validCharms
        · have hstep : step p none l = (some (m.indent, m.name), [l]) := by
            rw [step_none, refDetect_valid none hm hv hE]
          rw [processLines_step p _ hstep, List.singleton_append,
            processLines_step p _ hstep, List.singleton_append,
            ih (some (m.indent, m.name)) ?side]
          case side =>
            intro i' c' h'
            simp only [Option.some.injEq, Prod.mk.injEq] at h'
            rw [← h'.1]
            exact charmMatch_indent_ws hm
        · have hstep : step p none l = (none, [l]) := by
            rw [step_none, refDetect_invalid none hm hv]
          rw [processLines_step p _ hstep, List.singleton_append,
            processLines_step p _ hstep, List.singleton_append,
            ih none fun i' c' h' => nomatch h']
      | none =>
        have hstep : step p none l = (none, [l]) := by
          rw [step_none, refDetect_nocharm none hm hE]
        rw [processLines_step p _ hstep, List.singleton_append,
          processLines_step p _ hstep, List.singleton_append,
          ih none fun i' c' h' => nomatch h']
    · -- state `some (i, c)`
      have hws : ∀ ch ∈ i, pyIsSpace ch = true := hst i c rfl
      have hcmE : channelMatch (i ++ chanSp ++ X) = some ⟨i, X⟩ :=
        channelMatch_emit hws hX hXw
      have hstepE : step p (some (i, c)) (i ++ chanSp ++ X)
          = (none, [i ++ chanSp ++ X]) := by
        rw [step_chan i c (startsWith_emit i X) hcmE rfl,
          flushChannel_fixed i c hB hC]
      by_cases hpre : startsWith l i = true
      · cases hcm : channelMatch l with
        | some cm =>
          by_cases hind : cm.indent = i
          · -- the existing channel line is replaced
            have hstep : step p (some (i, c)) l = (none, [i ++ chanSp ++ X]) := by
              rw [step_chan i c hpre hcm hind, flushChannel_fixed i c hB hC]
            rw [processLines_step p _ hstep, List.singleton_append,
              processLines_step p _ hstepE, List.singleton_append,
              ih none fun i' c' h' => nomatch h']
          · -- a channel line of a different block passes through
            have hm : charmMatch l = none := charmMatch_of_channelMatch hcm
            have hnc : ∀ cm', channelMatch l = some cm' → cm'.indent ≠ i := by
              intro cm' h'
              rw [hcm] at h'
              rw [← Option.some.inj h']
              exact hind
            have hstep : step p (some (i, c)) l = (some (i, c), [l]) := by
              rw [step_in i c hpre hnc, refDetect_nocharm (some (i, c)) hm hE]
            rw [processLines_step p _ hstep, List.singleton_append,
              processLines_step p _ hstep, List.singleton_append,
              ih (some (i, c)) hst]
        | none =>
          have hnc : ∀ cm', channelMatch l = some cm' → cm'.indent ≠ i := by
            intro cm' h'
            rw [hcm] at h'
            exact absurd h' (by simp)
          cases hm : charmMatch l with
          | some m =>
            by_cases hv : m.name ∈ p.validCharms
            · have hstep : step p (some (i, c)) l
                  = (some (m.indent, m.name), [l]) := by
                rw [step_in i c hpre hnc, refDetect_valid (some (i, c)) hm hv hE]
              rw [processLines_step p _ hstep, List.singleton_append,
                processLines_step p _ hstep, List.singleton_append,
                ih (some (m.indent, m.name)) ?side2]
              case side2 =>
                intro i' c' h'
                simp only [Option.some.injEq, Prod.mk.injEq] at h'
                rw [← h'.1]
                exact charmMatch_indent_ws hm
            · have hstep : step p (some (i, c)) l = (some (i, c), [l]) := by
                rw [step_in i c hpre hnc, refDetect_invalid (some (i, c)) hm hv]
              rw [processLines_step p _ hstep, List.singleton_append,
                processLines_step p _ hstep, List.singleton_append,
                ih (some (i, c)) hst]
          | none =>
            have hstep : step p (some (i, c)) l = (some (i, c), [l]) := by
              rw [step_in i c hpre hnc, refDetect_nocharm (some (i, c)) hm hE]
            rw [processLines_step p _ hstep, List.singleton_append,
              processLines_step p _ hstep, List.singleton_append,
              ih (some (i, c)) hst]
      · -- the block ends: flush the synthesized channel line, then process
        -- the line from the reset state.
        have hpre' : startsWith l i = false := by
          cases hb : startsWith l i
          · rfl
          · exact absurd hb hpre
        have hstepD : step p (some (i, c)) l
            = ((refDetect p none l).1, [i ++ chanSp ++ X, l]) := by
          rw [step_out i c hpre', flushChannel_fixed i c hB hC,
            refDetect_snd_noens none hE]
          rfl
        have hstepl : step p none l = ((refDetect p none l).1, [l]) := by
          rw [step_none, refDetect_snd_noens none hE]
        have hows : ∀ i' c', (refDetect p none l).1 = some (i', c') →
            ∀ ch ∈ i', pyIsSpace ch = true :=
          refDetect_ws rfl fun i' c' h' => nomatch h'
        rw [processLines_step p _ hstepD]
        simp only [List.cons_append, List.nil_append]
        rw [processLines_step p _ hstepE, List.singleton_append,
          processLines_step p _ hstepl, List.singleton_append,
          ih ((refDetect p none l).1) hows]

/-- A track with an ignored prefix is not allowed. -/
theorem trackAllowed_of_ignored {igs : List Line} {t ig : Line}
    (hmem : ig ∈ igs) (hpre : startsWith t ig = true) :
    trackAllowed igs t = false := by
  unfold trackAllowed
  rw [List.all_eq_false]
  exact ⟨ig, hmem, by simp [hpre]⟩

theorem findTrack_cons (igs : List Line) (t : Line) (rest : List Line) :
    findTrack igs (t :: rest)
      = if igs.isEmpty then some t
        else if trackAllowed igs t then some t
        else findTrack igs rest := rfl

/-- `findTrack` skips every ignored candidate and returns the first allowed
one, however deep in the list it sits. -/
theorem findTrack_past_ignored {igs : List Line} (hne : igs ≠ [])
    (ts₁ : List Line) {t : Line}
    (hskip : ∀ u ∈ ts₁, ∃ ig ∈ igs, startsWith u ig = true)
    (hok : trackAllowed igs t = true) (ts₂ : List Line) :
    findTrack igs (ts₁ ++ t :: ts₂) = some t := by
  have hne' : igs.isEmpty = false := by
    cases igs
    · exact absurd rfl hne
    · rfl
  induction ts₁ with
  | nil =>
    rw [List.nil_append, findTrack_cons, hne', hok]
    simp
  | cons u ts ih =>
    obtain ⟨ig, hig, hpre⟩ := hskip u (by simp)
    have hu : trackAllowed igs u = false := trackAllowed_of_ignored hig hpre
    rw [List.cons_append, findTrack_cons, hne', hu]
    simp only [Bool.false_eq_true, if_false]
    exact ih fun x hx => hskip x (by simp [hx])

theorem buildProjects_cons (defs : List (Line × List Line)) (q : RawProject)
    (rest : List RawProject) (acc : LpCfg) :
    buildProjects defs (q :: rest) acc
      = (match q.charmhub? with
          | none => acc
          | some ch =>
            buildProjects defs rest (dictInsert acc ch
              (match q.branches? with
                | none => defs
                | some m =>
                  match branchesOf m with
                  | some bm => bm
                  | none => defs))) := rfl

/-- The project loop stops at the first entry without a `charmhub` key and
keeps only what was accumulated before it. -/
theorem buildProjects_stop (defs : List (Line × List Line))
    (ps₁ : List RawProject) {pr : RawProject} (hpr : pr.charmhub? = none)
    (ps₂ : List RawProject) (acc : LpCfg) :
    buildProjects defs (ps₁ ++ pr :: ps₂) acc = buildProjects defs ps₁ acc := by
  induction ps₁ generalizing acc with
  | nil =>
    rw [List.nil_append, buildProjects_cons, hpr]
    rfl
  | cons q qs ih =>
    rw [List.cons_append, buildProjects_cons, buildProjects_cons]
    cases hq : q.charmhub? with
    | none => rfl
    | some ch => exact ih _

/-- Frame property: a run of lines that are each inert from the closed state
(not an eligible reference, not a migration target, hence emitted verbatim
with the state staying closed) passes through the engine unchanged. -/
theorem processLines_frame (p : Cfg) (seg rest : List Line)
    (hseg : ∀ l ∈ seg, step p none l = (none, [l])) :
    processLines p none (seg ++ rest) = seg ++ processLines p none rest := by
  induction seg with
  | nil => simp
  | cons l seg' ih =>
    rw [List.cons_append, processLines_step p _ (hseg l (by simp)),
      List.singleton_append, ih fun x hx => hseg x (by simp [hx]),
      List.cons_append]

/-- The engine parameters with only the target channel replaced (used to
express "all other parameters held equal"). -/
def withChannel (p : Cfg) (ch : Option Line) : Cfg :=
  ⟨p.charms, p.lpConfig, ch, p.branches, p.ensurePfx, p.ignoreTracks⟩

/-! ### Claims -/

/-- Claim C1, corrected.  In branch mode, when channel resolution returns
null for an eligible block whose existing channel line sits at exactly the
block's indentation, that channel line is NOT kept: the `continue` drops it
and the null resolution emits no replacement, so the line is deleted and the
rest of the document is processed from the reset state. -/
theorem c1_branch_null_deletes_channel_line (p : Cfg) (L cl : Line)
    (m : CharmCapture) (cm : ChannelCapture) (rest : List Line)
    (hE : p.ensurePfx = false) (_hB : p.branches ≠ [])
    (hm : charmMatch L = some m) (hv : m.name ∈ p.validCharms)
    (hcm : channelMatch cl = some cm) (hind : cm.indent = m.indent)
    (hnull : getChannel p (some m.name) = none) :
    modifyChannel p (L :: cl :: rest) = L :: modifyChannel p rest := by
  have h1 : step p none L = (some (m.indent, m.name), [L]) := by
    rw [step_none, refDetect_valid none hm hv hE]
  have hpre : startsWith cl m.indent = true := by
    rw [← hind]
    exact channelMatch_startsWith hcm
  have h2 : step p (some (m.indent, m.name)) cl = (none, []) := by
    rw [step_chan m.indent m.name hpre hcm hind, flushChannel_none _ _ hnull]
  unfold modifyChannel
  rw [processLines_step p _ h1, List.singleton_append,
    processLines_step p _ h2, List.nil_append]

/-- Claim C1, counterexample to the claim as stated: in branch mode with
null resolution for eligible `foo`, the existing `channel: old` line at the
block's indentation does not survive — the output no longer contains it. -/
theorem c1_counterexample :
    modifyChannel
        ⟨[], [("foo".data, [])], none, ["b".data], false, []⟩
        ["charm: ch:foo".data, "channel: old".data]
      = ["charm: ch:foo".data]
    ∧ "channel: old".data ∉
        modifyChannel
          ⟨[], [("foo".data, [])], none, ["b".data], false, []⟩
          ["charm: ch:foo".data, "channel: old".data]
    ∧ getChannel ⟨[], [("foo".data, [])], none, ["b".data], false, []⟩
        (some "foo".data) = none
    ∧ "foo".data ∈
        (⟨[], [("foo".data, [])], none, ["b".data], false, []⟩ : Cfg).validCharms := by
  decide

/-- Claim C1, witness for the corrected statement at a concrete input. -/
theorem c1_witness :
    modifyChannel ⟨[], [("foo".data, [])], none, ["b".data], false, []⟩
        ["charm: ch:foo".data, "channel: old".data]
      = ["charm: ch:foo".data] :=
  c1_branch_null_deletes_channel_line
    ⟨[], [("foo".data, [])], none, ["b".data], false, []⟩
    "charm: ch:foo".data "channel: old".data
    ⟨[], "ch:".data, "foo".data⟩ ⟨[], "old".data⟩ []
    rfl (by decide) (by decide) (by decide) (by decide) (by decide) (by decide)

/-- Claim C2, corrected.  The candidate scan does advance past ignored
candidates: with a branch whose candidate list starts with any number of
ignored tracks followed by an allowed one, resolution returns that later
allowed candidate (the inner `break` only leaves the ignore loop, and the
track loop continues with the next candidate). -/
theorem c2_resolution_scans_past_ignored (p : Cfg) (c b : Line)
    (bm : List (Line × List Line)) (ts₁ ts₂ : List Line) (t : Line)
    (hb : p.branches = [b]) (h1 : alookup c p.lpConfig = some bm)
    (h2 : alookup b bm = some (ts₁ ++ t :: ts₂))
    (hig : p.ignoreTracks ≠ [])
    (hskip : ∀ u ∈ ts₁, ∃ ig ∈ p.ignoreTracks, startsWith u ig = true)
    (hok : trackAllowed p.ignoreTracks t = true) :
    getChannel p (some c) = some t := by
  unfold getChannel
  simp only [hb, List.isEmpty_cons, Bool.false_eq_true, if_false,
    List.findSome?_cons, List.findSome?_nil, h1, h2,
    findTrack_past_ignored hig ts₁ hskip hok ts₂]

/-- Claim C2, counterexample to the claim as stated: the first candidate
`latest/edge` starts with the ignored prefix `latest`, yet resolution does
not return null — it returns the second candidate `good`. -/
theorem c2_counterexample :
    getChannel
        ⟨[], [("foo".data, [("b".data, ["latest/edge".data, "good".data])])],
          none, ["b".data], false, ["latest".data]⟩
        (some "foo".data)
      = some "good".data
    ∧ startsWith "latest/edge".data "latest".data = true := by
  decide

/-- Claim C2, witness for the corrected statement at a concrete input. -/
theorem c2_witness :
    getChannel
        ⟨[], [("foo".data, [("b".data, ["latest/edge".data, "good".data])])],
          none, ["b".data], false, ["latest".data]⟩
        (some "foo".data)
      = some "good".data :=
  c2_resolution_scans_past_ignored _ "foo".data "b".data
    [("b".data, ["latest/edge".data, "good".data])]
    ["latest/edge".data] [] "good".data
    rfl (by decide) (by decide) (by decide) (by decide) (by decide)

/-- Claim C3, corrected and restricted: removal followed by adding channel
`X` coincides with directly setting channel `X` when the eligible block's
existing channel line is the last line of the block (here: a two-line
document, reference line then channel line), prefix migration off, no
branches, all other parameters held equal.  In general the two differ: the
round trip re-appends the channel line at the end of the block while the
direct rewrite replaces it in place. -/
theorem c3_roundtrip_on_trailing_channel (p : Cfg) (X L cl : Line)
    (m : CharmCapture) (cm : ChannelCapture)
    (hB : p.branches = []) (hE : p.ensurePfx = false)
    (hm : charmMatch L = some m) (hv : m.name ∈ p.charms)
    (hcm : channelMatch cl = some cm) (hind : cm.indent = m.indent) :
    modifyChannel (withChannel p (some X))
        (modifyChannel (withChannel p none) [L, cl])
      = modifyChannel (withChannel p (some X)) [L, cl] := by
  have hvR : m.name ∈ (withChannel p none).validCharms := by
    simp [Cfg.validCharms, withChannel, hB]
    exact hv
  have hvA : m.name ∈ (withChannel p (some X)).validCharms := by
    simp [Cfg.validCharms, withChannel, hB]
    exact hv
  have hpre : startsWith cl m.indent = true := by
    rw [← hind]
    exact channelMatch_startsWith hcm
  have hBR : (withChannel p none).branches = [] := hB
  have hBA : (withChannel p (some X)).branches = [] := hB
  have h1R : step (withChannel p none) none L
      = (some (m.indent, m.name), [L]) := by
    rw [step_none, refDetect_valid none hm hvR hE]
  have h2R : step (withChannel p none) (some (m.indent, m.name)) cl
      = (none, []) := by
    rw [step_chan m.indent m.name hpre hcm hind,
      flushChannel_removal _ _ hBR rfl]
  have h1A : step (withChannel p (some X)) none L
      = (some (m.indent, m.name), [L]) := by
    rw [step_none, refDetect_valid none hm hvA hE]
  have h2A : step (withChannel p (some X)) (some (m.indent, m.name)) cl
      = (none, [m.indent ++ chanSp ++ X]) := by
    rw [step_chan m.indent m.name hpre hcm hind,
      flushChannel_fixed m.indent m.name hBA rfl]
  have hRm : modifyChannel (withChannel p none) [L, cl] = [L] := by
    unfold modifyChannel
    rw [processLines_step _ _ h1R, List.singleton_append,
      processLines_step _ _ h2R, processLines_nil_none, List.nil_append]
  have hA1 : modifyChannel (withChannel p (some X)) [L]
      = [L, m.indent ++ chanSp ++ X] := by
    unfold modifyChannel
    rw [processLines_step _ _ h1A, List.singleton_append,
      processLines_nil_some, flushChannel_fixed m.indent m.name hBA rfl]
  have hA2 : modifyChannel (withChannel p (some X)) [L, cl]
      = [L, m.indent ++ chanSp ++ X] := by
    unfold modifyChannel
    rw [processLines_step _ _ h1A, List.singleton_append,
      processLines_step _ _ h2A, processLines_nil_none, List.append_nil]
  rw [hRm, hA1, hA2]

/-- Claim C3, counterexample to the claim as stated: with a block whose
channel line is followed by another block line, removal-then-add places the
new channel line at the end of the block, while the direct rewrite replaces
it in place, so the documents differ. -/
theorem c3_counterexample :
    modifyChannel ⟨["foo".data], [], some "new".data, [], false, []⟩
        (modifyChannel ⟨["foo".data], [], none, [], false, []⟩
          ["  charm: ch:foo".data, "  channel: old".data,
            "  option: 1".data, "other:".data])
      ≠ modifyChannel ⟨["foo".data], [], some "new".data, [], false, []⟩
          ["  charm: ch:foo".data, "  channel: old".data,
            "  option: 1".data, "other:".data] := by
  decide

/-- Claim C3, witness for the corrected statement at a concrete input. -/
theorem c3_witness :
    modifyChannel (withChannel ⟨["foo".data], [], none, [], false, []⟩
        (some "new".data))
        (modifyChannel (withChannel ⟨["foo".data], [], none, [], false, []⟩ none)
          ["  charm: ch:foo".data, "  channel: old".data])
      = modifyChannel (withChannel ⟨["foo".data], [], none, [], false, []⟩
          (some "new".data))
          ["  charm: ch:foo".data, "  channel: old".data] :=
  c3_roundtrip_on_trailing_channel ⟨["foo".data], [], none, [], false, []⟩
    "new".data "  charm: ch:foo".data "  channel: old".data
    ⟨"  ".data, "ch:".data, "foo".data⟩ ⟨"  ".data, "old".data⟩
    rfl rfl (by decide) (by decide) (by decide) (by decide)

/-- Claim C4, corrected.  With migration requested, the legacy prefix of a
reference line is rewritten only when the strict matcher does not match the
line at all; a line the strict matcher does match but whose name is outside
the eligible set takes the `if match:` branch, skips the `elif`, and is
emitted completely unchanged — its legacy prefix is NOT rewritten. -/
theorem c4_migration_only_without_strict_match :
    (∀ (p : Cfg) (l : Line) (am : AnyCharmCapture),
      p.ensurePfx = true → charmMatch l = none → anyCharmMatch l = some am →
      modifyChannel p [l] = [replaceAll am.pfx chLit l])
    ∧ (∀ (p : Cfg) (l : Line) (m : CharmCapture),
      charmMatch l = some m → m.name ∉ p.validCharms →
      modifyChannel p [l] = [l]) := by
  constructor
  · intro p l am hE hm ha
    have h1 : step p none l = (none, [replaceAll am.pfx chLit l]) := by
      rw [step_none, refDetect_any none hm ha hE]
    unfold modifyChannel
    rw [processLines_step p _ h1, processLines_nil_none, List.append_nil]
  · intro p l m hm hv
    have h1 : step p none l = (none, [l]) := by
      rw [step_none, refDetect_invalid none hm hv]
    unfold modifyChannel
    rw [processLines_step p _ h1, processLines_nil_none, List.append_nil]

/-- Claim C4, counterexample to the claim as stated: a line with the legacy
prefix `cs:~openstack-charmers/` whose name `foo` is not eligible fails the
condition "strict match and eligible", so per the claim its prefix should be
rewritten under forced migration — but the code leaves the line unchanged. -/
theorem c4_counterexample :
    modifyChannel ⟨[], [], some "x".data, [], true, []⟩
        ["charm: cs:~openstack-charmers/foo".data]
      = ["charm: cs:~openstack-charmers/foo".data]
    ∧ charmMatch "charm: cs:~openstack-charmers/foo".data
        = some ⟨[], "cs:~openstack-charmers/".data, "foo".data⟩
    ∧ "foo".data ∉ (⟨[], [], some "x".data, [], true, []⟩ : Cfg).validCharms
    ∧ anyCharmMatch "charm: cs:~openstack-charmers/foo".data
        = some ⟨[], "cs:~openstack-charmers/".data, "foo".data⟩ := by
  decide

/-- Claim C4, witness for the corrected statement at concrete inputs: a
non-canonical legacy reference is migrated, a strict-but-ineligible one is
left untouched. -/
theorem c4_witness :
    modifyChannel ⟨[], [], some "x".data, [], true, []⟩
        ["charm: cs:other/foo".data]
      = ["charm: ch:foo".data]
    ∧ modifyChannel ⟨[], [], some "x".data, [], true, []⟩
        ["charm: cs:~openstack-charmers/foo".data]
      = ["charm: cs:~openstack-charmers/foo".data] :=
  ⟨(c4_migration_only_without_strict_match.1
      ⟨[], [], some "x".data, [], true, []⟩ "charm: cs:other/foo".data
      ⟨[], "cs:other/".data, "foo".data⟩ rfl (by decide) (by decide)).trans
      (by decide),
    c4_migration_only_without_strict_match.2
      ⟨[], [], some "x".data, [], true, []⟩
      "charm: cs:~openstack-charmers/foo".data
      ⟨[], "cs:~openstack-charmers/".data, "foo".data⟩
      (by decide) (by decide)⟩

/-- Claim C5, corrected and restricted: the rewrite is idempotent in
fixed-channel mode — prefix migration off, no branches, and a target channel
that is a nonempty whitespace-free token — for every document.  In general
idempotence fails: a channel value containing whitespace yields a synthesized
line the channel matcher does not recognize, so a second pass appends the
line again; migration can also turn a generic reference into an eligible one
that only the second pass extends with a channel line. -/
theorem c5_idempotent_fixed_channel (p : Cfg) (X : Line) (doc : List Line)
    (hE : p.ensurePfx = false) (hB : p.branches = []) (hC : p.channel = some X)
    (hX : X ≠ []) (hXw : ∀ c ∈ X, notSpace c = true) :
    modifyChannel p (modifyChannel p doc) = modifyChannel p doc :=
  processLines_idem p X hE hB hC hX hXw doc none fun _ _ h => nomatch h

/-- Claim C5, counterexample to the claim as stated: with the channel value
`a b` (which the CLI accepts), the synthesized `channel: a b` line is not
recognized on the second pass, which therefore appends a duplicate. -/
theorem c5_counterexample :
    modifyChannel ⟨["foo".data], [], some "a b".data, [], false, []⟩
        (modifyChannel ⟨["foo".data], [], some "a b".data, [], false, []⟩
          ["charm: ch:foo".data])
      ≠ modifyChannel ⟨["foo".data], [], some "a b".data, [], false, []⟩
          ["charm: ch:foo".data] := by
  decide

/-- Claim C5, witness for the corrected statement at a concrete input. -/
theorem c5_witness :
    modifyChannel ⟨["foo".data], [], some "2023.1/edge".data, [], false, []⟩
        (modifyChannel
          ⟨["foo".data], [], some "2023.1/edge".data, [], false, []⟩
          ["charm: ch:foo".data, "  option: 1".data, "other:".data])
      = modifyChannel ⟨["foo".data], [], some "2023.1/edge".data, [], false, []⟩
          ["charm: ch:foo".data, "  option: 1".data, "other:".data] :=
  c5_idempotent_fixed_channel _ "2023.1/edge".data _ rfl rfl rfl
    (by decide) (by decide)

/-- Claim C6, corrected: a block anchored by an ineligible reference passes
through byte-identical provided the engine reaches it in the closed state and
every other line of the block is inert (not an eligible reference and not a
migration target).  Unrestricted the claim fails, because the engine keeps
acting inside the anchored span: an eligible reference nested in the span
still receives a channel line, and migration still rewrites nested generic
references. -/
theorem c6_inert_block_untouched (p : Cfg) (L : Line) (m : CharmCapture)
    (blk rest : List Line) (hm : charmMatch L = some m)
    (hv : m.name ∉ p.validCharms)
    (hblk : ∀ l ∈ blk, step p none l = (none, [l])) :
    processLines p none ((L :: blk) ++ rest)
      = (L :: blk) ++ processLines p none rest := by
  apply processLines_frame
  intro l hl
  rcases List.mem_cons.mp hl with h | h
  · rw [h, step_none, refDetect_invalid none hm hv]
  · exact hblk l h

/-- Claim C6, counterexample to the claim as stated: `zzz` is not eligible
and anchors a block whose span contains a generic legacy reference; with
migration on, that line inside the span is rewritten, so the block is not
byte-identical in the output. -/
theorem c6_counterexample :
    modifyChannel ⟨[], [], some "x".data, [], true, []⟩
        ["  charm: ch:zzz".data, "  charm: cs:other/bar".data]
      = ["  charm: ch:zzz".data, "  charm: ch:bar".data]
    ∧ charmMatch "  charm: ch:zzz".data
        = some ⟨"  ".data, "ch:".data, "zzz".data⟩
    ∧ "zzz".data ∉ (⟨[], [], some "x".data, [], true, []⟩ : Cfg).validCharms
    ∧ startsWith "  charm: cs:other/bar".data "  ".data = true
    ∧ "  charm: cs:other/bar".data ∉
        modifyChannel ⟨[], [], some "x".data, [], true, []⟩
          ["  charm: ch:zzz".data, "  charm: cs:other/bar".data] := by
  decide

/-- Claim C6, witness for the corrected statement at a concrete input. -/
theorem c6_witness :
    processLines ⟨["foo".data], [], some "x".data, [], true, []⟩ none
        (("charm: ch:zzz".data
            :: ["  options: 1".data, "  channel: y".data]) ++ ["x:".data])
      = ("charm: ch:zzz".data
            :: ["  options: 1".data, "  channel: y".data])
          ++ processLines ⟨["foo".data], [], some "x".data, [], true, []⟩ none
              ["x:".data] :=
  c6_inert_block_untouched _ _ ⟨[], "ch:".data, "zzz".data⟩ _ _
    (by decide) (by decide) (by decide)

/-- Claim C7, corrected: the loader performs no deduplication — it returns
the in-order concatenation of the kept lines of all files, so membership is
exactly "some file has a line that strips to this kept name", but a name
listed twice also occurs twice in the result. -/
theorem c7_charms_list_membership (x : Line) (files : List (List Line)) :
    x ∈ getCharmsList files
      ↔ keepCharmLine x = true ∧ ∃ f ∈ files, ∃ l ∈ f, pyStrip l = x := by
  unfold getCharmsList
  simp only [List.mem_filter, List.mem_flatten, List.mem_map]
  constructor
  · rintro ⟨⟨g, ⟨f, hf, rfl⟩, hx⟩, hk⟩
    obtain ⟨l, hl, rfl⟩ := List.mem_map.mp hx
    exact ⟨hk, f, hf, l, hl, rfl⟩
  · rintro ⟨hk, f, hf, l, hl, rfl⟩
    exact ⟨⟨f.map pyStrip, ⟨f, hf, rfl⟩, List.mem_map_of_mem pyStrip hl⟩, hk⟩

/-- Claim C7, counterexample to the claim as stated: a name occurring in two
files occurs twice in the result — no deduplication happens. -/
theorem c7_counterexample :
    getCharmsList [["foo".data], ["foo".data]] = ["foo".data, "foo".data]
    ∧ (getCharmsList [["foo".data], ["foo".data]]).count "foo".data = 2 := by
  decide

/-- Claim C8, confirmed: a document that parses (as a mapping) but has no
`projects` key contributes an empty mapping, returned normally rather than
through the fatal unparsable-document path. -/
theorem c8_no_projects_empty_nonfatal (rc : RawConfig)
    (h : rc.projects? = none) :
    parseLpBuilderConfigFile (some rc) = Except.ok [] := by
  simp only [parseLpBuilderConfigFile, parseLpConfigRaw, h]

/-- Claim C8, witness at a concrete input (defaults present, no projects). -/
theorem c8_witness :
    parseLpBuilderConfigFile
        (some ⟨some [("b".data, ⟨some ["t".data]⟩)], none⟩)
      = Except.ok [] :=
  c8_no_projects_empty_nonfatal _ rfl

/-- Claim C9, confirmed: when a second eligible reference line at the same
indentation appears while a block is open, the state is simply overwritten —
the first block is abandoned without a synthesized channel line, and only the
second reference receives one (here at end of document). -/
theorem c9_sibling_reference_overwrites_state (p : Cfg) (X L1 L2 : Line)
    (m1 m2 : CharmCapture)
    (hE : p.ensurePfx = false) (hB : p.branches = []) (hC : p.channel = some X)
    (hm1 : charmMatch L1 = some m1) (hv1 : m1.name ∈ p.validCharms)
    (hm2 : charmMatch L2 = some m2) (hv2 : m2.name ∈ p.validCharms)
    (hind : m2.indent = m1.indent) :
    modifyChannel p [L1, L2] = [L1, L2, m1.indent ++ chanSp ++ X] := by
  have h1 : step p none L1 = (some (m1.indent, m1.name), [L1]) := by
    rw [step_none, refDetect_valid none hm1 hv1 hE]
  have hpre : startsWith L2 m1.indent = true := by
    rw [← hind]
    exact charmMatch_startsWith hm2
  have hnc : ∀ cm, channelMatch L2 = some cm → cm.indent ≠ m1.indent := by
    intro cm h'
    rw [channelMatch_of_charmMatch hm2] at h'
    exact absurd h' (by simp)
  have h2 : step p (some (m1.indent, m1.name)) L2
      = (some (m2.indent, m2.name), [L2]) := by
    rw [step_in m1.indent m1.name hpre hnc, refDetect_valid _ hm2 hv2 hE]
  unfold modifyChannel
  rw [processLines_step p _ h1, List.singleton_append,
    processLines_step p _ h2, List.singleton_append,
    processLines_nil_some, flushChannel_fixed m2.indent m2.name hB hC, hind]

/-- Claim C9, witness at a concrete input: of two sibling eligible
references, only the second gets a channel line. -/
theorem c9_witness :
    modifyChannel ⟨["aaa".data, "bbb".data], [], some "x".data, [], false, []⟩
        ["charm: ch:aaa".data, "charm: ch:bbb".data]
      = ["charm: ch:aaa".data, "charm: ch:bbb".data, "channel: x".data] :=
  (c9_sibling_reference_overwrites_state _ "x".data _ _
      ⟨[], "ch:".data, "aaa".data⟩ ⟨[], "ch:".data, "bbb".data⟩
      rfl rfl rfl (by decide) (by decide) (by decide) (by decide) rfl).trans
    (by decide)

/-- Claim C10, confirmed: a `projects` entry without the component
identifier stops the loop via the outer `KeyError` handler — the file
contributes exactly the entries accumulated before that entry, and later
entries are dropped, without aborting the run. -/
theorem c10_missing_charmhub_truncates (rc : RawConfig)
    (ps₁ ps₂ : List RawProject) (pr : RawProject)
    (h : rc.projects? = some (ps₁ ++ pr :: ps₂))
    (hpr : pr.charmhub? = none) :
    parseLpBuilderConfigFile (some rc)
      = Except.ok (buildProjects (rawDefaults rc) ps₁ []) := by
  simp only [parseLpBuilderConfigFile, parseLpConfigRaw, h]
  rw [buildProjects_stop (rawDefaults rc) ps₁ hpr ps₂ []]

/-- Claim C10, witness at a concrete input: the entry before the malformed
one is kept (a partial, non-empty contribution), the one after is dropped. -/
theorem c10_witness :
    parseLpBuilderConfigFile
        (some ⟨none, some [⟨some "aaa".data, none⟩, ⟨none, none⟩,
          ⟨some "ccc".data, none⟩]⟩)
      = Except.ok [("aaa".data, [])] :=
  (c10_missing_charmhub_truncates _ [⟨some "aaa".data, none⟩]
      [⟨some "ccc".data, none⟩] ⟨none, none⟩ rfl rfl).trans
    (congrArg Except.ok (by decide))

end UpdateChannel
